import Mathlib

/-!
Verification of the RAG-Powered Financial Research Assistant core pipeline.

Shallow embedding of the repository's pure core:
* `chunkSpans` / `chunk_text`   — `src/ingest.py`, `chunk_text` (character windowing loop);
* `build_corpus`                — `src/ingest.py`, `build_corpus`;
* `ConversationMemory.*`        — `src/memory.py` (`contextualize`, `update`, `infer_topic`);
* `Retriever.search`            — `src/retriever.py`, the marker-filtering result loop;
* `ExtractiveAnswerGenerator.generate` — `src/app.py`.

Python strings are modelled as `String`/`List Char`; the mutable `sessions`
dict of `ConversationMemory` as an insertion-ordered association list; the
vector index (FAISS) is an external collaborator, so `Retriever.search` takes
the id/score rows it returns as inputs, constrained by the documented contract.
-/

/-- One step of Python's `while start < n` loop in `chunk_text`
(`src/ingest.py`).  `e := min (start + cs) n`; the loop emits `(start, e)`,
stops when `e = n` (i.e. `n ≤ start + cs`), otherwise continues from
`e - ov` (natural subtraction models the `if start < 0: start = 0` clamp).
The source loop has no termination guard, so the recursion carries explicit
fuel; `none` means the fuel ran out before the loop finished. -/
def chunkSpans (n cs ov : Nat) : Nat → Nat → Option (List (Nat × Nat))
  | 0, _ => none
  | fuel + 1, start =>
    if start < n then
      if n ≤ start + cs then
        some [(start, n)]
      else
        match chunkSpans n cs ov fuel (start + cs - ov) with
        | none => none
        | some rest => some ((start, start + cs) :: rest)
    else some []

/-- Python slice `text[start:end]` for `0 ≤ start ≤ end ≤ len text`. -/
def sliceChunk (text : List Char) (p : Nat × Nat) : List Char :=
  (text.drop p.1).take (p.2 - p.1)

/-- `chunk_text` from `src/ingest.py`: the list of overlapping character
windows.  Fuel `n + 1` is sufficient whenever `ov < cs` (each iteration
advances the start by `cs - ov ≥ 1`). -/
def chunk_text (text : List Char) (cs ov : Nat) : Option (List (List Char)) :=
  (chunkSpans text.length cs ov (text.length + 1) 0).map (List.map (sliceChunk text))

/-- Python `str.strip()`: drop leading and trailing whitespace characters. -/
def strip (l : List Char) : List Char :=
  ((l.dropWhile Char.isWhitespace).reverse.dropWhile Char.isWhitespace).reverse

/-- Helper of `splitWs`: accumulator holds the current word reversed. -/
def splitWsAux : List Char → List Char → List (List Char)
  | [], acc => if acc.isEmpty then [] else [acc.reverse]
  | c :: rest, acc =>
    if c.isWhitespace then
      if acc.isEmpty then splitWsAux rest []
      else acc.reverse :: splitWsAux rest []
    else splitWsAux rest (c :: acc)

/-- Python `str.split()` with no argument: split on runs of whitespace,
producing no empty words. -/
def splitWs (l : List Char) : List (List Char) := splitWsAux l []

/-- Page record produced by `read_pdf_with_pages` (`src/ingest.py`):
`{"page": i, "text": text}`. -/
structure Page where
  page : Nat
  text : String
deriving DecidableEq

/-- Chunk record stored in the corpus (`build_corpus`, `src/ingest.py`):
`{"page": ..., "chunk_id": "p<page>_c<idx>", "text": ch.strip()}`. -/
structure Chunk where
  page : Nat
  chunk_id : String
  text : String
deriving DecidableEq

/-- `build_corpus` from `src/ingest.py`: chunk every page's text in order,
attach `chunk_id = f"p{page}_c{idx}"`, store the stripped chunk text.
Propagates the chunker's fuel failure as `none`. -/
def build_corpus (pages : List Page) (cs ov : Nat) : Option (List Chunk) :=
  match pages with
  | [] => some []
  | p :: rest =>
    match chunk_text p.text.toList cs ov, build_corpus rest cs ov with
    | some chunks, some acc =>
      some ((chunks.enum.map (fun ic =>
        { page := p.page
          chunk_id := "p" ++ Nat.repr p.page ++ "_c" ++ Nat.repr ic.1
          text := (strip ic.2).asString })) ++ acc)
    | _, _ => none

/-- Per-session record of `src/memory.py` (`SessionState` dataclass). -/
structure SessionState where
  last_topic : String
  last_user_question : String
  history : List String
deriving DecidableEq

/-- The default-constructed `SessionState()`. -/
def SessionState.init : SessionState :=
  { last_topic := "", last_user_question := "", history := [] }

/-- The `sessions: Dict[str, SessionState]` of `ConversationMemory`,
modelled as an insertion-ordered association list. -/
def Memory := List (String × SessionState)

/-- Python `session_id in self.sessions` / `self.sessions[session_id]`. -/
def lookupSid : List (String × SessionState) → String → Option SessionState
  | [], _ => none
  | (k, v) :: rest, sid => if k = sid then some v else lookupSid rest sid

/-- Python dict assignment `self.sessions[sid] = st`: replace in place if the
key exists, append at the end when it does not (dicts keep insertion order). -/
def memSet : List (String × SessionState) → String → SessionState → List (String × SessionState)
  | [], sid, st => [(sid, st)]
  | (k, v) :: rest, sid, st =>
    if k = sid then (k, st) :: rest else (k, v) :: memSet rest sid st

/-- `ConversationMemory._get` (`src/memory.py`): return the session state,
inserting a fresh default state when the id is unseen.  Returns the
(possibly grown) map together with the state. -/
def memGet (m : List (String × SessionState)) (sid : String) :
    List (String × SessionState) × SessionState :=
  match lookupSid m sid with
  | some s => (m, s)
  | none => (m ++ [(sid, SessionState.init)], SessionState.init)

/-- The fixed pronoun set of `ConversationMemory.contextualize`. -/
def pronouns : List String := ["it", "that", "they", "this", "those", "them", "there", "here"]

/-- `ConversationMemory.contextualize` (`src/memory.py`): strip the question,
tokenize its lowercase form, and when it is short or contains a pronoun and
the session has a non-empty `last_topic`, append `" (context: <topic>)"`.
Returns the map after the `_get` call together with the rewritten question. -/
def ConversationMemory.contextualize (m : List (String × SessionState))
    (session_id user_question : String) :
    List (String × SessionState) × String :=
  let ms := memGet m session_id
  let q := (strip user_question.toList).asString
  let tokens := (splitWs (q.toList.map Char.toLower)).map List.asString
  let q2 :=
    if tokens.length ≤ 5 || tokens.any (fun t => pronouns.contains t) then
      if ms.2.last_topic ≠ "" then q ++ " (context: " ++ ms.2.last_topic ++ ")"
      else q
    else q
  (ms.1, q2)

/-- `ConversationMemory.update` (`src/memory.py`): append the question to the
history, set `last_user_question`, and overwrite `last_topic` when the given
topic is non-empty. -/
def ConversationMemory.update (m : List (String × SessionState))
    (session_id user_question topic : String) : List (String × SessionState) :=
  let ms := memGet m session_id
  let s1 := { ms.2 with
    history := ms.2.history ++ [user_question]
    last_user_question := user_question }
  let s2 := if topic ≠ "" then { s1 with last_topic := topic } else s1
  memSet ms.1 session_id s2

/-- Does `needle` occur contiguously in `hay`?  Python's `k in ql`. -/
def isSubstring (needle : List Char) : List Char → Bool
  | [] => needle.isEmpty
  | c :: rest => needle.isPrefixOf (c :: rest) || isSubstring needle rest

/-- The fixed ordered keyword list of `ConversationMemory.infer_topic`. -/
def topicKeywords : List String :=
  ["budget", "debt", "infrastructure", "tax", "revenue", "expenditure",
   "loan", "deficit", "grant", "policy"]

/-- `ConversationMemory.infer_topic` (`src/memory.py`): first keyword of the
fixed list occurring in the lowercased question; otherwise the first three
words longer than 3 characters joined by spaces. -/
def ConversationMemory.infer_topic (user_question : String) : String :=
  let ql := user_question.toList.map Char.toLower
  match topicKeywords.find? (fun k => isSubstring k.toList ql) with
  | some k => k
  | none =>
    " ".intercalate ((((splitWs ql).filter (fun w => 3 < w.length)).take 3).map List.asString)

/-- One `/ask` request's effect on conversation memory (`src/app.py`,
`ask`, and `src/chatbot.py`, `Chatbot.answer`): contextualize (which may
lazily create the session), then update with the ORIGINAL question and the
topic inferred from the ORIGINAL question. -/
def askStep (m : List (String × SessionState)) (sid q : String) :
    List (String × SessionState) :=
  let m1 := (ConversationMemory.contextualize m sid q).1
  ConversationMemory.update m1 sid q (ConversationMemory.infer_topic q)

/-- Run a sequence of `(session_id, question)` requests through the memory. -/
def runQueries (m : List (String × SessionState)) :
    List (String × String) → List (String × SessionState)
  | [] => m
  | (sid, q) :: rest => runQueries (askStep m sid q) rest

/-- The session state observed for `sid` (default state when unseen). -/
def stateOf (m : List (String × SessionState)) (sid : String) : SessionState :=
  (lookupSid m sid).getD SessionState.init

/-- The evolution of a session's `last_topic` over a list of questions:
`update` overwrites it only when the inferred topic is non-empty. -/
def foldTopic (qs : List String) (t0 : String) : String :=
  qs.foldl (fun t q =>
    if ConversationMemory.infer_topic q ≠ "" then ConversationMemory.infer_topic q else t) t0

/-- SearchResult record assembled by `Retriever.search` (`src/retriever.py`). -/
structure SearchResult where
  score : Float
  page : Nat
  chunk_id : String
  text : String

/-- Python `corpus[i]` on a list with an `int` subscript: negative indices
address from the end; out of range raises (modelled as `none`). -/
def pyGet (l : List Chunk) (i : Int) : Option Chunk :=
  if 0 ≤ i then l.get? i.toNat
  else if -i ≤ (l.length : Int) then l.get? (l.length - (-i).toNat) else none

/-- The result-assembly loop of `Retriever.search` (`src/retriever.py`):
skip the FAISS not-found marker `-1`, look the position up in the metadata
store, and build a SearchResult.  `none` models the `IndexError` raised by
`corpus[i]` on an out-of-range position. -/
def searchLoop (corpus : List Chunk) : List (Int × Float) → Option (List SearchResult)
  | [] => some []
  | (i, s) :: rest =>
    if i = -1 then searchLoop corpus rest
    else
      match pyGet corpus i with
      | none => none
      | some item =>
        match searchLoop corpus rest with
        | none => none
        | some res =>
          some ({ score := s, page := item.page, chunk_id := item.chunk_id,
                  text := item.text } :: res)

/-- `Retriever.search` (`src/retriever.py`) downstream of the embedding model
and FAISS call: `idxs`/`scores` are the rows `index.search` returned for the
query; the loop zips them and filters the `-1` markers. -/
def Retriever.search (corpus : List Chunk) (idxs : List Int) (scores : List Float) :
    Option (List SearchResult) :=
  searchLoop corpus (idxs.zip scores)

/-- `ExtractiveAnswerGenerator.generate` (`src/app.py`).  The `%.3f` score
formatting of the f-string is floating-point presentation, abstracted as the
`fmtScore` parameter; everything else follows the source. -/
def ExtractiveAnswerGenerator.generate (fmtScore : Float → String)
    (question : String) (results : List SearchResult) : String :=
  if results.isEmpty then
    "No relevant information found in the document."
  else
    let lines := ["Q: " ++ question, "", "Top matches:"] ++
      results.map (fun r =>
        let snippet := (strip r.text.toList).map (fun c => if c = '\n' then ' ' else c)
        let snippet := if 300 < snippet.length then snippet.take 300 ++ "â€¦".toList else snippet
        "- (page " ++ Nat.repr r.page ++ ", score " ++ fmtScore r.score ++ ") " ++
          snippet.asString)
    "\n".intercalate lines

/-! ## Theorems -/

/-- C8: for every question string, the extractive answer generator applied to
an empty sequence of SearchResults returns the fixed literal
no-relevant-information message. -/
theorem extractive_empty_result_message (fmtScore : Float → String) (question : String) :
    ExtractiveAnswerGenerator.generate fmtScore question [] =
      "No relevant information found in the document." := rfl

/-- C4 (failing input): with `text = "ab"`, `chunk_size = 1`, `overlap = 1`
the chunker is not rejected with an error; its loop never terminates — for
every fuel bound the embedded loop fails to finish, and in particular
`chunk_text` yields no result. -/
theorem chunk_text_overlap_eq_chunk_size_loops :
    (∀ fuel, chunkSpans 2 1 1 fuel 0 = none) ∧ chunk_text "ab".toList 1 1 = none := by
  have h : ∀ fuel, chunkSpans 2 1 1 fuel 0 = none := by
    intro fuel
    induction fuel with
    | zero => rfl
    | succ fuel ih => simp [chunkSpans, ih]
  exact ⟨h, by simp [chunk_text, h]⟩

/-- C2 (counterexample): `infer_topic "What is the tax and budget policy?"`
does not return `"tax"`. -/
theorem infer_topic_precedence_cex :
    ConversationMemory.infer_topic "What is the tax and budget policy?" ≠ "tax" := by decide

/-- C2 (amended): `infer_topic "What is the tax and budget policy?"` returns
`"budget"`: the first keyword of the fixed ordered list found in the question
wins, and `"budget"` precedes `"tax"` and `"policy"` in that list. -/
theorem infer_topic_budget_precedes_tax :
    ConversationMemory.infer_topic "What is the tax and budget policy?" = "budget" := by decide

/-- C5 (counterexample): `contextualize` does not always leave the sessions
map unchanged — on a fresh memory it lazily inserts a default session state. -/
theorem contextualize_mutates_fresh_session_cex :
    (ConversationMemory.contextualize [] "s1" "hello").1 ≠ [] := by decide

/-- C5 (amended): `contextualize` never modifies any existing session entry:
every entry present before the call is still present (unchanged) after it;
when the session id is already known the map is returned entirely unchanged;
when it is unknown the only change is the insertion of a fresh default
session state for that id at the end of the map. -/
theorem contextualize_frame (m : List (String × SessionState)) (sid q : String) :
    (∀ e ∈ m, e ∈ (ConversationMemory.contextualize m sid q).1) ∧
    ((lookupSid m sid).isSome → (ConversationMemory.contextualize m sid q).1 = m) ∧
    (lookupSid m sid = none →
      (ConversationMemory.contextualize m sid q).1 = m ++ [(sid, SessionState.init)]) := by
  unfold ConversationMemory.contextualize memGet
  cases h : lookupSid m sid with
  | some s => simp [h]
  | none =>
    simp [h]
    exact fun a b hm => Or.inl hm

/-- Witness for `contextualize_frame` at a memory that already knows the
session: the map is unchanged. -/
theorem contextualize_frame_witness :
    (ConversationMemory.contextualize [("a", SessionState.init)] "a" "hi").1 =
      [("a", SessionState.init)] :=
  (contextualize_frame [("a", SessionState.init)] "a" "hi").2.1 (by decide)

/-- C3 (counterexample): a question of eight tokens without pronouns but with
trailing whitespace is not returned unchanged — `contextualize` strips it. -/
theorem contextualize_not_original_cex :
    (ConversationMemory.contextualize [] "s"
        "does the policy describe annual revenue allocation rules ").2 ≠
      "does the policy describe annual revenue allocation rules " := by decide

/-- The Bool condition of `contextualize` matches its propositional reading. -/
theorem contextualize_cond_iff (tokens : List String) :
    ((decide (tokens.length ≤ 5) || tokens.any fun t => pronouns.contains t) = true) ↔
      (tokens.length ≤ 5 ∨ ∃ t ∈ tokens, t ∈ pronouns) := by
  simp [List.any_eq_true]

/-- C3 (amended): `contextualize` returns the STRIPPED question, not the
original: when the whitespace-split token list of the lowercased stripped
question has at most 5 tokens or contains a token of the fixed pronoun set,
and the session's `last_topic` is non-empty, the result is the stripped
question with the literal suffix `" (context: <last_topic>)"` appended; in
every other case the result is the stripped question itself. -/
theorem contextualize_spec (m : List (String × SessionState)) (sid q : String) :
    (ConversationMemory.contextualize m sid q).2 =
      (let qs := (strip q.toList).asString
       let tokens := (splitWs (qs.toList.map Char.toLower)).map List.asString
       if (tokens.length ≤ 5 ∨ ∃ t ∈ tokens, t ∈ pronouns) ∧
           (stateOf m sid).last_topic ≠ "" then
         qs ++ " (context: " ++ (stateOf m sid).last_topic ++ ")"
       else qs) := by
  have key : ∀ (s : SessionState) (qs : String) (tokens : List String),
      (if decide (tokens.length ≤ 5) || tokens.any (fun t => pronouns.contains t) then
         if s.last_topic ≠ "" then qs ++ " (context: " ++ s.last_topic ++ ")" else qs
       else qs) =
        (if (tokens.length ≤ 5 ∨ ∃ t ∈ tokens, t ∈ pronouns) ∧ s.last_topic ≠ "" then
           qs ++ " (context: " ++ s.last_topic ++ ")"
         else qs) := by
    intro s qs tokens
    by_cases hb : tokens.length ≤ 5 ∨ ∃ t ∈ tokens, t ∈ pronouns
    · rw [if_pos ((contextualize_cond_iff tokens).mpr hb)]
      by_cases ht : s.last_topic = ""
      · rw [if_neg (by simp [ht]), if_neg (by simp [ht])]
      · rw [if_pos ht, if_pos ⟨hb, ht⟩]
    · rw [if_neg (fun hc => hb ((contextualize_cond_iff tokens).mp hc)),
        if_neg (fun hc => hb hc.1)]
  unfold ConversationMemory.contextualize stateOf memGet
  cases h : lookupSid m sid with
  | some s =>
    simp only [h, Option.getD_some]
    exact key s _ _
  | none =>
    simp only [h, Option.getD_none]
    exact key SessionState.init _ _

/-- Dropping a satisfied prefix twice is the same as dropping it once. -/
theorem dropWhile_dropWhile (p : Char → Bool) (l : List Char) :
    (l.dropWhile p).dropWhile p = l.dropWhile p := by
  induction l with
  | nil => rfl
  | cons a t ih =>
    by_cases h : p a
    · simp [List.dropWhile_cons, h, ih]
    · simp [List.dropWhile_cons, h]

/-- `dropWhile` commutes with appending a non-matching last element. -/
theorem dropWhile_append_singleton (p : Char → Bool) (a : Char) (ha : p a = false) :
    ∀ l : List Char, (l ++ [a]).dropWhile p = l.dropWhile p ++ [a] := by
  intro l
  induction l with
  | nil => simp [List.dropWhile_cons, ha]
  | cons x t ih =>
    by_cases h : p x
    · simp [List.dropWhile_cons, h, ih]
    · simp [List.dropWhile_cons, h]

/-- If a list has no droppable prefix, trimming it from the right and then
dropping from the left changes nothing on the left. -/
theorem dropWhile_reverse_fixed (p : Char → Bool) (A : List Char)
    (hA : A.dropWhile p = A) :
    ((A.reverse.dropWhile p).reverse).dropWhile p = (A.reverse.dropWhile p).reverse := by
  cases A with
  | nil => rfl
  | cons a t =>
    have ha : p a = false := by
      by_cases h : p a
      · exfalso
        rw [List.dropWhile_cons, if_pos h] at hA
        have := congrArg List.length hA
        have ht := (List.dropWhile_sublist (l := t) p).length_le
        simp at this
        omega
      · simpa using h
    rw [List.reverse_cons, dropWhile_append_singleton p a ha t.reverse]
    rw [List.reverse_append]
    simp only [List.reverse_cons, List.reverse_nil, List.nil_append, List.singleton_append]
    rw [List.dropWhile_cons, if_neg (by simp [ha])]

/-- `strip` is idempotent. -/
theorem strip_idem (l : List Char) : strip (strip l) = strip l := by
  unfold strip
  set A := l.dropWhile Char.isWhitespace with hA
  have h1 : A.dropWhile Char.isWhitespace = A := dropWhile_dropWhile _ l
  set S := (A.reverse.dropWhile Char.isWhitespace).reverse with hS
  have h2 : S.dropWhile Char.isWhitespace = S := dropWhile_reverse_fixed _ A h1
  rw [h2, hS, List.reverse_reverse, dropWhile_dropWhile]

/-- Characters of a string built from a character list. -/
theorem toList_asString (l : List Char) : (List.asString l).toList = l := rfl

/-- C6 (amended): every chunk record produced by `build_corpus` stores text
already trimmed of leading and trailing whitespace (stripping it again is a
no-op); the text is NOT guaranteed non-empty, since a window that is entirely
whitespace strips to the empty string. -/
theorem build_corpus_text_trimmed (pages : List Page) (cs ov : Nat) (corpus : List Chunk)
    (h : build_corpus pages cs ov = some corpus) :
    ∀ c ∈ corpus, (strip c.text.toList).asString = c.text := by
  induction pages generalizing corpus with
  | nil =>
    unfold build_corpus at h
    cases h
    intro c hc
    cases hc
  | cons p rest ih =>
    unfold build_corpus at h
    cases hct : chunk_text p.text.toList cs ov with
    | none => rw [hct] at h; cases h
    | some chunks =>
      cases hbc : build_corpus rest cs ov with
      | none => rw [hct, hbc] at h; cases h
      | some acc =>
        rw [hct, hbc] at h
        cases h
        intro c hc
        rcases List.mem_append.mp hc with hin | hin
        · rcases List.mem_map.mp hin with ⟨ic, _, rfl⟩
          show (strip ((strip ic.2).asString).toList).asString = _
          rw [toList_asString, strip_idem]
        · exact ih acc hbc c hin

/-- Witness for `build_corpus_text_trimmed`: the corpus built from one page
`"ab"` with `chunk_size = 2`, `overlap = 0` contains the chunk
`p1_c0 = "ab"`, whose text is already trimmed. -/
theorem build_corpus_text_trimmed_witness :
    (strip (String.toList "ab")).asString = "ab" :=
  build_corpus_text_trimmed [⟨1, "ab"⟩] 2 0 [⟨1, "p1_c0", "ab"⟩] (by decide)
    ⟨1, "p1_c0", "ab"⟩ (by decide)

/-- C6 (counterexample): a page whose text is `"a"`, eight spaces, `"b"` is
non-empty, yet with `chunk_size = 4`, `overlap = 0` `build_corpus` produces a
chunk whose stored text is empty after trimming (the middle window is all
whitespace). -/
theorem build_corpus_empty_text_cex :
    ((build_corpus [⟨1, "a        b"⟩] 4 0).getD []).any (fun c => c.text.isEmpty) = true := by
  decide

/-- The result loop succeeds on rows whose non-marker positions are in range,
and produces exactly one result per non-marker row. -/
theorem searchLoop_length (corpus : List Chunk) :
    ∀ ps : List (Int × Float),
      (∀ p ∈ ps, p.1 ≠ -1 → 0 ≤ p.1 ∧ p.1.toNat < corpus.length) →
      ∃ res, searchLoop corpus ps = some res ∧
        res.length = (ps.filter (fun p => p.1 ≠ -1)).length := by
  intro ps
  induction ps with
  | nil => intro _; exact ⟨[], rfl, rfl⟩
  | cons hd tl ih =>
    intro hv
    obtain ⟨i, s⟩ := hd
    by_cases hi : i = -1
    · subst hi
      obtain ⟨res, hres, hlen⟩ := ih (fun p hp h => hv p (List.mem_cons_of_mem _ hp) h)
      refine ⟨res, ?_, ?_⟩
      · simp [searchLoop, hres]
      · simp [List.filter_cons, hlen]
    · obtain ⟨h0, hlt⟩ := hv (i, s) (List.mem_cons_self _ _) hi
      have hget : pyGet corpus i = some (corpus.get ⟨i.toNat, hlt⟩) := by
        unfold pyGet
        rw [if_pos h0]
        exact List.get?_eq_get hlt
      obtain ⟨res, hres, hlen⟩ := ih (fun p hp h => hv p (List.mem_cons_of_mem _ hp) h)
      refine ⟨{ score := s, page := (corpus.get ⟨i.toNat, hlt⟩).page,
                chunk_id := (corpus.get ⟨i.toNat, hlt⟩).chunk_id,
                text := (corpus.get ⟨i.toNat, hlt⟩).text } :: res, ?_, ?_⟩
      · simp [searchLoop, hi, hget, hres]
      · simp [List.filter_cons, hi, hlen]

/-- The first components of a zip form a sublist of the left list. -/
theorem map_fst_zip_sublist {α β : Type} :
    ∀ (l1 : List α) (l2 : List β), ((l1.zip l2).map Prod.fst).Sublist l1
  | [], _ => by simp
  | _ :: _, [] => by simp
  | a :: t, b :: u => by
    simpa using List.Sublist.cons₂ a (map_fst_zip_sublist t u)

/-- Filtering on the first component commutes with projecting it. -/
theorem filter_fst_map :
    ∀ ps : List (Int × Float),
      (ps.filter (fun p => p.1 ≠ -1)).map Prod.fst =
        (ps.map Prod.fst).filter (fun i => i ≠ -1)
  | [] => rfl
  | (i, s) :: tl => by
    by_cases hi : i = -1
    · simpa [List.filter_cons, hi] using filter_fst_map tl
    · simpa [List.filter_cons, hi] using filter_fst_map tl

/-- A duplicate-free list of integers that are all non-negative and below `m`
has length at most `m`. -/
theorem nodup_nonneg_lt_length_le (l : List Int) (m : Nat)
    (hnd : l.Nodup) (hb : ∀ i ∈ l, 0 ≤ i ∧ i.toNat < m) : l.length ≤ m := by
  have hmap : (l.map Int.toNat).Nodup := by
    refine hnd.map_on ?_
    intro x hx y hy hxy
    have h1 := (hb x hx).1
    have h2 := (hb y hy).1
    omega
  have hsub : (l.map Int.toNat).toFinset ⊆ Finset.range m := by
    intro x hx
    rw [List.mem_toFinset] at hx
    rcases List.mem_map.mp hx with ⟨i, hi, rfl⟩
    exact Finset.mem_range.mpr (hb i hi).2
  have hcard := Finset.card_le_card hsub
  rw [Finset.card_range, List.toFinset_card_of_nodup hmap] at hcard
  simpa using hcard

/-- C7: for every corpus and every FAISS answer row of `k` positions whose
non-marker entries are distinct in-range positions (the documented index
contract), `Retriever.search` succeeds and returns at most `k` results and at
most one result per corpus entry, because every `-1` not-found marker is
filtered out before a SearchResult is assembled. -/
theorem retriever_search_topk (corpus : List Chunk) (idxs : List Int) (scores : List Float)
    (k : Nat) (hk : idxs.length = k)
    (hvalid : ∀ i ∈ idxs, i ≠ -1 → 0 ≤ i ∧ i.toNat < corpus.length)
    (hnodup : (idxs.filter (fun i => i ≠ -1)).Nodup) :
    ∃ res, Retriever.search corpus idxs scores = some res ∧
      res.length ≤ k ∧ res.length ≤ corpus.length := by
  have hv : ∀ p ∈ idxs.zip scores, p.1 ≠ -1 → 0 ≤ p.1 ∧ p.1.toNat < corpus.length := by
    intro p hp
    obtain ⟨a, b⟩ := p
    exact hvalid a (List.of_mem_zip hp).1
  obtain ⟨res, hres, hlen⟩ := searchLoop_length corpus (idxs.zip scores) hv
  refine ⟨res, hres, ?_, ?_⟩
  · rw [hlen, ← hk]
    calc ((idxs.zip scores).filter (fun p => p.1 ≠ -1)).length
        ≤ (idxs.zip scores).length := List.length_filter_le _ _
      _ ≤ idxs.length := by
          rw [List.length_zip]
          omega
  · have hcomm := filter_fst_map (idxs.zip scores)
    have hlen2 : res.length =
        (((idxs.zip scores).map Prod.fst).filter (fun i => i ≠ -1)).length := by
      rw [hlen, ← hcomm, List.length_map]
    have hsubl : (((idxs.zip scores).map Prod.fst).filter (fun i => i ≠ -1)).Sublist
        (idxs.filter (fun i => i ≠ -1)) :=
      (map_fst_zip_sublist idxs scores).filter _
    have hnd := hnodup.sublist hsubl
    have hmem : ∀ i ∈ ((idxs.zip scores).map Prod.fst).filter (fun i => i ≠ -1),
        0 ≤ i ∧ i.toNat < corpus.length := by
      intro i hi
      have hmem2 := hsubl.subset hi
      rw [List.mem_filter] at hmem2
      exact hvalid i hmem2.1 (of_decide_eq_true hmem2.2)
    rw [hlen2]
    exact nodup_nonneg_lt_length_le _ corpus.length hnd hmem

/-- Witness for `retriever_search_topk`: a two-chunk corpus, one valid
position and one `-1` marker. -/
theorem retriever_search_topk_witness :
    ∃ res, Retriever.search [⟨1, "p1_c0", "alpha"⟩, ⟨1, "p1_c1", "beta"⟩]
        [0, -1] [1.0, 0.5] = some res ∧ res.length ≤ 2 ∧ res.length ≤ 2 :=
  retriever_search_topk [⟨1, "p1_c0", "alpha"⟩, ⟨1, "p1_c1", "beta"⟩]
    [0, -1] [1.0, 0.5] 2 rfl (by decide) (by decide)

/-- Looking up the key just written by `memSet` yields the new state. -/
theorem lookupSid_memSet_self :
    ∀ (m : List (String × SessionState)) (sid : String) (st : SessionState),
      lookupSid (memSet m sid st) sid = some st
  | [], sid, st => by simp [memSet, lookupSid]
  | (k, v) :: rest, sid, st => by
    by_cases h : k = sid
    · simp [memSet, h, lookupSid]
    · simp [memSet, h, lookupSid, lookupSid_memSet_self rest sid st]

/-- `memSet` does not disturb other keys. -/
theorem lookupSid_memSet_other :
    ∀ (m : List (String × SessionState)) (sid : String) (st : SessionState) (sid' : String),
      sid' ≠ sid → lookupSid (memSet m sid st) sid' = lookupSid m sid'
  | [], sid, st, sid', h => by
    unfold memSet lookupSid
    rw [if_neg (fun hc => h hc.symm)]
    rfl
  | (k, v) :: rest, sid, st, sid', h => by
    unfold memSet
    by_cases hk : k = sid
    · rw [if_pos hk]
      unfold lookupSid
      subst hk
      rw [if_neg (fun hc => h hc.symm), if_neg (fun hc => h hc.symm)]
    · rw [if_neg hk]
      unfold lookupSid
      by_cases hks : k = sid'
      · rw [if_pos hks, if_pos hks]
      · rw [if_neg hks, if_neg hks]
        exact lookupSid_memSet_other rest sid st sid' h

/-- Appending a binding for an absent key makes it found. -/
theorem lookupSid_append_self :
    ∀ (m : List (String × SessionState)) (sid : String) (st : SessionState),
      lookupSid m sid = none → lookupSid (m ++ [(sid, st)]) sid = some st
  | [], sid, st, _ => by
    rw [List.nil_append]
    unfold lookupSid
    rw [if_pos rfl]
  | (k, v) :: rest, sid, st, h => by
    unfold lookupSid at h
    by_cases hk : k = sid
    · rw [if_pos hk] at h
      cases h
    · rw [if_neg hk] at h
      rw [List.cons_append]
      unfold lookupSid
      rw [if_neg hk]
      exact lookupSid_append_self rest sid st h

/-- Appending a binding for one key does not disturb other keys. -/
theorem lookupSid_append_other :
    ∀ (m : List (String × SessionState)) (sid : String) (st : SessionState) (sid' : String),
      sid' ≠ sid → lookupSid (m ++ [(sid, st)]) sid' = lookupSid m sid'
  | [], sid, st, sid', h => by
    rw [List.nil_append]
    unfold lookupSid
    rw [if_neg (fun hc => h hc.symm)]
    rfl
  | (k, v) :: rest, sid, st, sid', h => by
    rw [List.cons_append]
    unfold lookupSid
    by_cases hk : k = sid'
    · rw [if_pos hk, if_pos hk]
    · rw [if_neg hk, if_neg hk]
      exact lookupSid_append_other rest sid st sid' h

/-- After `_get`, the session id maps to the observed state. -/
theorem lookupSid_memGet_self (m : List (String × SessionState)) (sid : String) :
    lookupSid (memGet m sid).1 sid = some (stateOf m sid) := by
  unfold memGet stateOf
  cases h : lookupSid m sid with
  | some s => simp [h]
  | none => simpa [h] using lookupSid_append_self m sid SessionState.init h

/-- `_get` does not disturb other session ids. -/
theorem lookupSid_memGet_other (m : List (String × SessionState)) (sid sid' : String)
    (h : sid' ≠ sid) : lookupSid (memGet m sid).1 sid' = lookupSid m sid' := by
  unfold memGet
  cases hm : lookupSid m sid with
  | some s => rfl
  | none => exact lookupSid_append_other m sid SessionState.init sid' h

/-- The state `_get` hands out is the observed state of the session. -/
theorem memGet_snd (m : List (String × SessionState)) (sid : String) :
    (memGet m sid).2 = stateOf m sid := by
  unfold memGet stateOf
  cases h : lookupSid m sid <;> rfl

/-- `contextualize` leaves the observed state of its own session unchanged. -/
theorem stateOf_contextualize_self (m : List (String × SessionState)) (sid q : String) :
    stateOf (ConversationMemory.contextualize m sid q).1 sid = stateOf m sid := by
  show stateOf (memGet m sid).1 sid = stateOf m sid
  unfold stateOf
  rw [lookupSid_memGet_self]
  rfl

/-- `contextualize` leaves the observed state of other sessions unchanged. -/
theorem stateOf_contextualize_other (m : List (String × SessionState)) (sid q sid' : String)
    (h : sid' ≠ sid) :
    stateOf (ConversationMemory.contextualize m sid q).1 sid' = stateOf m sid' := by
  show stateOf (memGet m sid).1 sid' = stateOf m sid'
  unfold stateOf
  rw [lookupSid_memGet_other m sid sid' h]

/-- Field-level effect of `update` on its own session. -/
theorem stateOf_update_self (m : List (String × SessionState)) (sid q tp : String) :
    stateOf (ConversationMemory.update m sid q tp) sid =
      (let s := stateOf m sid
       let s1 := { s with history := s.history ++ [q], last_user_question := q }
       if tp ≠ "" then { s1 with last_topic := tp } else s1) := by
  unfold ConversationMemory.update
  conv_lhs => unfold stateOf
  rw [lookupSid_memSet_self, memGet_snd]
  rfl

/-- `update` leaves other sessions unchanged. -/
theorem stateOf_update_other (m : List (String × SessionState)) (sid q tp sid' : String)
    (h : sid' ≠ sid) :
    stateOf (ConversationMemory.update m sid q tp) sid' = stateOf m sid' := by
  unfold ConversationMemory.update
  conv_lhs => unfold stateOf
  rw [lookupSid_memSet_other _ _ _ _ h, lookupSid_memGet_other m sid sid' h]
  rfl

/-- Field-level effect of one `/ask` step on its own session: the ORIGINAL
question is appended to the history and becomes `last_user_question`; the
topic inferred from the ORIGINAL question overwrites `last_topic` when
non-empty. -/
theorem askStep_fields (m : List (String × SessionState)) (sid q : String) :
    (stateOf (askStep m sid q) sid).history = (stateOf m sid).history ++ [q] ∧
    (stateOf (askStep m sid q) sid).last_user_question = q ∧
    (stateOf (askStep m sid q) sid).last_topic =
      (if ConversationMemory.infer_topic q ≠ "" then ConversationMemory.infer_topic q
       else (stateOf m sid).last_topic) := by
  unfold askStep
  rw [stateOf_update_self, stateOf_contextualize_self]
  by_cases hc : ConversationMemory.infer_topic q ≠ "" <;> simp [hc]

/-- One `/ask` step leaves other sessions unchanged. -/
theorem stateOf_askStep_other (m : List (String × SessionState)) (sid q sid' : String)
    (h : sid' ≠ sid) : stateOf (askStep m sid q) sid' = stateOf m sid' := by
  unfold askStep
  rw [stateOf_update_other _ _ _ _ _ h, stateOf_contextualize_other _ _ _ _ h]

/-- `getD` after `getLast?` peels one element off the front. -/
theorem getLast?_getD_cons :
    ∀ (l : List String) (a x : String), ((a :: l).getLast?).getD x = (l.getLast?).getD a
  | [], _, _ => rfl
  | b :: t, a, x => by
    rw [List.getLast?_cons_cons]
    calc ((b :: t).getLast?).getD x = (t.getLast?).getD b := getLast?_getD_cons t b x
      _ = ((b :: t).getLast?).getD a := (getLast?_getD_cons t b a).symm

/-- Running a request sequence: per-session history is extended by exactly the
questions submitted to that session, `last_user_question` tracks the last of
them, and `last_topic` folds the inferred topics of them. -/
theorem runQueries_stateOf (sid : String) :
    ∀ (qs : List (String × String)) (m : List (String × SessionState)),
      (stateOf (runQueries m qs) sid).history =
        (stateOf m sid).history ++ ((qs.filter (fun p => p.1 = sid)).map Prod.snd) ∧
      (stateOf (runQueries m qs) sid).last_user_question =
        (((qs.filter (fun p => p.1 = sid)).map Prod.snd).getLast?).getD
          ((stateOf m sid).last_user_question) ∧
      (stateOf (runQueries m qs) sid).last_topic =
        foldTopic ((qs.filter (fun p => p.1 = sid)).map Prod.snd)
          ((stateOf m sid).last_topic)
  | [], m => by simp [runQueries, foldTopic]
  | (sid', q) :: rest, m => by
    have hrun : runQueries m ((sid', q) :: rest) = runQueries (askStep m sid' q) rest := rfl
    obtain ⟨ih1, ih2, ih3⟩ := runQueries_stateOf sid rest (askStep m sid' q)
    by_cases h : sid' = sid
    · subst h
      obtain ⟨hf1, hf2, hf3⟩ := askStep_fields m sid' q
      have hfilter : ((sid', q) :: rest).filter (fun p => p.1 = sid') =
          (sid', q) :: rest.filter (fun p => p.1 = sid') := by
        simp [List.filter_cons]
      rw [hrun, hfilter]
      refine ⟨?_, ?_, ?_⟩
      · rw [ih1, hf1]
        simp
      · rw [ih2, hf2]
        simp only [List.map_cons]
        exact (getLast?_getD_cons _ _ _).symm
      · rw [ih3, hf3]
        simp only [List.map_cons]
        rfl
    · have hne : sid' ≠ sid := h
      have hfilter : ((sid', q) :: rest).filter (fun p => p.1 = sid) =
          rest.filter (fun p => p.1 = sid) := by
        simp [List.filter_cons, h]
      rw [hrun, hfilter]
      rw [stateOf_askStep_other m sid' q sid (fun hc => hne (Eq.symm hc))] at ih1 ih2 ih3
      exact ⟨ih1, ih2, ih3⟩

/-- C10: conversation memory is only ever updated with the user's original
question and the topic inferred from it, never with the contextualized
rewrite: after any sequence of answered queries starting from a fresh memory,
a session's history is exactly the list of questions submitted to it, its
`last_user_question` is the last of them, every stored history entry is a
question exactly as submitted, and if no submitted question contains the
suffix marker `" (context: "` then no stored history entry does either. -/
theorem chat_memory_stores_original_questions (qs : List (String × String)) (sid : String) :
    (stateOf (runQueries [] qs) sid).history =
      (qs.filter (fun p => p.1 = sid)).map Prod.snd ∧
    (stateOf (runQueries [] qs) sid).last_user_question =
      (((qs.filter (fun p => p.1 = sid)).map Prod.snd).getLast?).getD "" ∧
    (∀ h ∈ (stateOf (runQueries [] qs) sid).history, ∃ p ∈ qs, p.1 = sid ∧ p.2 = h) ∧
    ((∀ p ∈ qs, isSubstring (String.toList " (context: ") p.2.toList = false) →
      ∀ h ∈ (stateOf (runQueries [] qs) sid).history,
        isSubstring (String.toList " (context: ") h.toList = false) := by
  obtain ⟨h1, h2, _⟩ := runQueries_stateOf sid qs []
  have hinit : stateOf [] sid = SessionState.init := rfl
  rw [hinit] at h1 h2
  have h1' : (stateOf (runQueries [] qs) sid).history =
      (qs.filter (fun p => p.1 = sid)).map Prod.snd := by
    simpa [SessionState.init] using h1
  have hmem : ∀ h ∈ (stateOf (runQueries [] qs) sid).history,
      ∃ p ∈ qs, p.1 = sid ∧ p.2 = h := by
    intro x hx
    rw [h1'] at hx
    rcases List.mem_map.mp hx with ⟨p, hp, rfl⟩
    rcases List.mem_filter.mp hp with ⟨hpq, hps⟩
    exact ⟨p, hpq, of_decide_eq_true hps, rfl⟩
  refine ⟨h1', by simpa [SessionState.init] using h2, hmem, ?_⟩
  intro hall x hx
  rcases hmem x hx with ⟨p, hpq, _, rfl⟩
  exact hall p hpq

/-- Witness for `chat_memory_stores_original_questions`: a single submitted
question without the suffix marker, hence nothing stored carries it. -/
theorem chat_memory_stores_original_questions_witness :
    isSubstring (String.toList " (context: ") (String.toList "what is the budget?") = false := by
  have h := chat_memory_stores_original_questions [("s", "what is the budget?")] "s"
  refine h.2.2.2 (by decide) "what is the budget?" ?_
  rw [h.1]
  decide

/-- With `ov < cs`, each loop iteration advances the start by `cs - ov ≥ 1`,
so fuel exceeding the remaining distance suffices for the loop to finish. -/
theorem chunkSpans_isSome (n cs ov : Nat) (hov : ov < cs) :
    ∀ fuel start, n - start < fuel → (chunkSpans n cs ov fuel start).isSome := by
  intro fuel
  induction fuel with
  | zero => intro start h; omega
  | succ fuel ih =>
    intro start h
    unfold chunkSpans
    by_cases hs : start < n
    · rw [if_pos hs]
      by_cases he : n ≤ start + cs
      · rw [if_pos he]
        rfl
      · rw [if_neg he]
        have hrec := ih (start + cs - ov) (by omega)
        cases hr : chunkSpans n cs ov fuel (start + cs - ov) with
        | none => rw [hr] at hrec; cases hrec
        | some rest => rfl
    · rw [if_neg hs]
      rfl

/-- Structure of a successful chunking run started inside the text: the head
span starts at `start`; every span is non-degenerate and ends at
`min (start + cs) n`; consecutive spans advance by `cs - ov` with full-size
non-final windows; and the spans cover every position from `start` to `n`. -/
theorem chunkSpans_sound (n cs ov : Nat) (hov : ov < cs) :
    ∀ fuel start L, chunkSpans n cs ov fuel start = some L → start < n →
      (∃ e tl, L = (start, e) :: tl) ∧
      (∀ p ∈ L, p.1 < p.2 ∧ p.2 = min (p.1 + cs) n) ∧
      List.Chain' (fun a b => b.1 + ov = a.2 ∧ a.2 = a.1 + cs ∧ a.2 < n) L ∧
      (∀ pos, start ≤ pos → pos < n → ∃ p ∈ L, p.1 ≤ pos ∧ pos < p.2) := by
  intro fuel
  induction fuel with
  | zero => intro start L h hs; cases h
  | succ fuel ih =>
    intro start L h hs
    unfold chunkSpans at h
    rw [if_pos hs] at h
    by_cases he : n ≤ start + cs
    · rw [if_pos he] at h
      cases h
      refine ⟨⟨n, [], rfl⟩, ?_, ?_, ?_⟩
      · intro p hp
        rcases List.mem_singleton.mp hp with rfl
        exact ⟨hs, by omega⟩
      · exact List.chain'_singleton _
      · intro pos hple hplt
        exact ⟨(start, n), List.mem_singleton.mpr rfl, hple, hplt⟩
    · rw [if_neg he] at h
      cases hr : chunkSpans n cs ov fuel (start + cs - ov) with
      | none => rw [hr] at h; cases h
      | some rest =>
        rw [hr] at h
        cases h
        have hlt : start + cs - ov < n := by omega
        obtain ⟨⟨e', tl', hrest⟩, hmem, hchain, hcov⟩ := ih (start + cs - ov) rest hr hlt
        refine ⟨⟨start + cs, rest, rfl⟩, ?_, ?_, ?_⟩
        · intro p hp
          rcases List.mem_cons.mp hp with rfl | hp'
          · exact ⟨by omega, by omega⟩
          · exact hmem p hp'
        · rw [hrest]
          refine List.Chain'.cons ?_ (hrest ▸ hchain)
          refine ⟨by omega, rfl, by omega⟩
        · intro pos hple hplt
          by_cases hpos : pos < start + cs
          · exact ⟨(start, start + cs), List.mem_cons_self _ _, hple, hpos⟩
          · obtain ⟨p, hpL, hp1, hp2⟩ := hcov pos (by omega) hplt
            exact ⟨p, List.mem_cons_of_mem _ hpL, hp1, hp2⟩

/-- C1: for every text, `chunk_size > 0` and `0 ≤ overlap < chunk_size`, the
chunker succeeds and its spans have strictly increasing start offsets; every
chunk except possibly the last has length exactly `chunk_size`; consecutive
chunks overlap by exactly `overlap` characters (the next span starts exactly
`overlap` before the previous end, and ends no earlier); the spans together
cover every character position of the input; each produced chunk is the text
slice of its span; and the sequence is non-empty whenever the input is. -/
theorem chunk_text_spec (text : List Char) (cs ov : Nat) (hcs : 0 < cs) (hov : ov < cs) :
    ∃ L, chunkSpans text.length cs ov (text.length + 1) 0 = some L ∧
      chunk_text text cs ov = some (L.map (sliceChunk text)) ∧
      (L.map Prod.fst).Pairwise (· < ·) ∧
      (∀ i, ∀ h : i + 1 < L.length,
        (L.get ⟨i, by omega⟩).2 - (L.get ⟨i, by omega⟩).1 = cs) ∧
      (∀ i, ∀ h : i + 1 < L.length,
        (L.get ⟨i + 1, h⟩).1 + ov = (L.get ⟨i, by omega⟩).2 ∧
        (L.get ⟨i, by omega⟩).2 ≤ (L.get ⟨i + 1, h⟩).2) ∧
      (∀ pos, pos < text.length → ∃ p ∈ L, p.1 ≤ pos ∧ pos < p.2) ∧
      (∀ p ∈ L, (sliceChunk text p).length = p.2 - p.1) ∧
      (text ≠ [] → L ≠ []) := by
  have hsome := chunkSpans_isSome text.length cs ov hov (text.length + 1) 0 (by omega)
  obtain ⟨L, hL⟩ := Option.isSome_iff_exists.mp hsome
  have hct : chunk_text text cs ov = some (L.map (sliceChunk text)) := by
    unfold chunk_text
    rw [hL]
    rfl
  rcases Nat.eq_zero_or_pos text.length with h0 | h0
  · have hL0 : L = [] := by
      unfold chunkSpans at hL
      rw [if_neg (by omega)] at hL
      exact (Option.some.inj hL).symm
    subst hL0
    refine ⟨[], hL, hct, by simp, ?_, ?_, ?_, ?_, ?_⟩
    · intro i h
      simp at h
    · intro i h
      simp at h
    · intro pos hpos
      omega
    · intro p hp
      cases hp
    · intro ht
      exact absurd (List.length_eq_zero.mp h0) ht
  · obtain ⟨⟨e, tl, hhd⟩, hmem, hchain, hcov⟩ :=
      chunkSpans_sound text.length cs ov hov (text.length + 1) 0 L hL h0
    have hget := List.chain'_iff_get.mp hchain
    refine ⟨L, hL, hct, ?_, ?_, ?_, ?_, ?_, ?_⟩
    · have hchain2 : List.Chain' (fun a b : Nat × Nat => a.1 < b.1) L :=
        hchain.imp (fun a b hab => by omega)
      haveI : IsTrans (Nat × Nat) (fun a b => a.1 < b.1) :=
        ⟨fun a b c hab hbc => lt_trans hab hbc⟩
      rw [List.pairwise_map]
      exact List.chain'_iff_pairwise.mp hchain2
    · intro i h
      obtain ⟨h1, h2, h3⟩ := hget i (by omega)
      omega
    · intro i h
      obtain ⟨h1, h2, h3⟩ := hget i (by omega)
      have hb := hmem (L.get ⟨i + 1, h⟩) (List.get_mem _ _ _)
      refine ⟨h1, ?_⟩
      rw [hb.2]
      exact le_min (by omega) (by omega)
    · intro pos hpos
      exact hcov pos (Nat.zero_le _) hpos
    · intro p hp
      have hpm := hmem p hp
      have hple : p.2 ≤ text.length := by
        have h2 := hpm.2
        have h3 := min_le_right (p.1 + cs) text.length
        omega
      unfold sliceChunk
      rw [List.length_take, List.length_drop]
      omega
    · intro _
      rw [hhd]
      exact List.cons_ne_nil _ _

/-- Witness for `chunk_text_spec` at the repository's own test input
(`tests/test_chunking.py`): the alphabet, `chunk_size = 10`, `overlap = 2`. -/
theorem chunk_text_spec_witness :
    0 < 10 ∧ 2 < 10 ∧
    (∃ L, chunkSpans (String.toList "abcdefghijklmnopqrstuvwxyz").length 10 2
        ((String.toList "abcdefghijklmnopqrstuvwxyz").length + 1) 0 = some L ∧
      chunk_text (String.toList "abcdefghijklmnopqrstuvwxyz") 10 2 =
        some (L.map (sliceChunk (String.toList "abcdefghijklmnopqrstuvwxyz"))) ∧
      (L.map Prod.fst).Pairwise (· < ·) ∧
      (∀ i, ∀ h : i + 1 < L.length,
        (L.get ⟨i, by omega⟩).2 - (L.get ⟨i, by omega⟩).1 = 10) ∧
      (∀ i, ∀ h : i + 1 < L.length,
        (L.get ⟨i + 1, h⟩).1 + 2 = (L.get ⟨i, by omega⟩).2 ∧
        (L.get ⟨i, by omega⟩).2 ≤ (L.get ⟨i + 1, h⟩).2) ∧
      (∀ pos, pos < (String.toList "abcdefghijklmnopqrstuvwxyz").length →
        ∃ p ∈ L, p.1 ≤ pos ∧ pos < p.2) ∧
      (∀ p ∈ L, (sliceChunk (String.toList "abcdefghijklmnopqrstuvwxyz") p).length = p.2 - p.1) ∧
      (String.toList "abcdefghijklmnopqrstuvwxyz" ≠ [] → L ≠ [])) :=
  ⟨by decide, by decide,
    chunk_text_spec (String.toList "abcdefghijklmnopqrstuvwxyz") 10 2 (by decide) (by decide)⟩
